import Mathlib

/-!
Shallow embedding of the Backtest repository (market_analyzer.py, strategy.py,
risk_manager.py, order_handler.py, portfolio_manager.py) and proofs about it.

Conventions of the embedding:
* Python floats are modelled as exact rationals (`ℚ`).
* Python dicts keyed by instrument strings are modelled as association lists
  (`List (String × α)`), with dict-style update (replace in place, else append)
  and deletion.
* Timestamp strings are modelled as `Option Int` (epoch seconds): `some n` is a
  string that `pd.Timestamp` / `datetime.fromisoformat` parses to `n`, `none`
  is an unparsable (or missing) timestamp, where parsing raises.
* A Python `try/except` that swallows an exception is modelled by returning the
  state as mutated up to the raising statement.
-/

namespace Backtest

/-- Dict lookup: `d.get(k)`. -/
def lookupA {α : Type} (m : List (String × α)) (k : String) : Option α :=
  match m with
  | [] => none
  | (k', v') :: rest => if k' = k then some v' else lookupA rest k

/-- Dict update `d[k] = v`: replace the value at an existing key in place,
otherwise append the new binding (Python dict insertion semantics). -/
def setA {α : Type} (m : List (String × α)) (k : String) (v : α) :
    List (String × α) :=
  match m with
  | [] => [(k, v)]
  | (k', v') :: rest =>
      if k' = k then (k', v) :: rest else (k', v') :: setA rest k v

/-- Dict deletion `del d[k]` (the key is assumed present; on an absent key the
caller models the `KeyError`). -/
def eraseA {α : Type} (m : List (String × α)) (k : String) :
    List (String × α) :=
  match m with
  | [] => []
  | (k', v') :: rest =>
      if k' = k then rest else (k', v') :: eraseA rest k

/-- A timestamp string: `some n` parses to epoch second `n`, `none` does not
parse. -/
abbrev TimeStr := Option Int

/-- Models `pandas.Timedelta.days`: floor of the difference in whole days. -/
def daysBetween (entry exit_ : Int) : Int :=
  (exit_ - entry).fdiv 86400

/-! ## Indicator Engine (`market_analyzer.py`, `MarketAnalyzer`) -/

/-- A market bar as seen by the analyzer: the `close` field plus the optional
`sma` field the analyzer may attach (raw bars carry `sma = none`, i.e. no
`sma` key).  `time` stands for all the other payload fields that are carried
through unchanged. -/
structure Bar where
  time : Int
  close : ℚ
  sma : Option ℚ
  deriving DecidableEq, Repr

/-- Models `MarketAnalyzer.__init__`: the rolling window and the bar buffer. -/
structure MAState where
  indicator_window : Nat
  buffer : List Bar
  deriving DecidableEq, Repr

/-- Models `MarketAnalyzer(indicator_window)`. -/
def MAState.init (w : Nat) : MAState := ⟨w, []⟩

/-- Python's negative-index tail slice `l[-w:]` (note `l[-0:]` is the whole
list). -/
def pyTail {α : Type} (l : List α) (w : Nat) : List α :=
  if w = 0 then l else l.drop (l.length - w)

/-- Mean of the `close` values of the last `w` bars of the buffer
(`df['close'].rolling(window=w).mean()` evaluated at the last row). -/
def smaOfBuffer (buf : List Bar) (w : Nat) : ℚ :=
  (((pyTail buf w).map Bar.close).sum) / (w : ℚ)

/-- Models `MarketAnalyzer.process_data`, called with a non-empty buffer (the caller
appends the incoming bar first); `last` is `self.buffer[-1]`. -/
def processData (s : MAState) : Option Bar :=
  match s.buffer.getLast? with
  | none => none
  | some last =>
      if s.buffer.length < s.indicator_window then
        some last
      else
        some { last with sma := some (smaOfBuffer s.buffer s.indicator_window) }

/-- Models `MarketAnalyzer.on_market_data`: append the bar, form the history slice,
enrich the latest bar.  Returns (new state, enriched bar, history slice). -/
def onMarketData (s : MAState) (b : Bar) : MAState × Bar × List Bar :=
  let buf := s.buffer ++ [b]
  let history :=
    if buf.length < s.indicator_window then buf
    else pyTail buf s.indicator_window
  let s' : MAState := { s with buffer := buf }
  let enriched := (processData s').getD b
  (s', enriched, history)

/-- Processing a whole bar sequence through the analyzer (state only). -/
def runMA (s : MAState) : List Bar → MAState
  | [] => s
  | b :: bs => runMA (onMarketData s b).1 bs

/-! ## Signal Generator (`strategy.py`, `SMA_CrossoverStrategy`) -/

/-- Models `self.current_position`, a value of `'long'`, `'short'` or `None`. -/
inductive PosSide where
  | long
  | short
  deriving DecidableEq, Repr

/-- A bar as the strategy reads it (`current_bar.get(...)`): the fields may be
missing; `time = none` also covers an unparsable time string. -/
structure SBar where
  time : Option Int
  close : Option ℚ
  sma : Option ℚ
  deriving DecidableEq, Repr

/-- A signal dict emitted by the strategy. -/
structure Sig where
  action : String
  instrument : String
  size : ℚ
  price : ℚ
  time : Int
  deriving DecidableEq, Repr

/-- Models `SMA_CrossoverStrategy` state. -/
structure StratState where
  instrument : String
  size : ℚ
  current_position : Option PosSide
  no_trade_reasons : List (String × Nat)
  deriving DecidableEq, Repr

/-- Models `SMA_CrossoverStrategy(instrument, size)`. -/
def StratState.init (instrument : String) (size : ℚ) : StratState :=
  ⟨instrument, size, none, []⟩

/-- Models `self.no_trade_reasons[reason] += 1`. -/
def bumpReason (m : List (String × Nat)) (k : String) : List (String × Nat) :=
  setA m k ((lookupA m k).getD 0 + 1)

/-- Models `SMA_CrossoverStrategy.generate_signal`: the if/elif crossover chain.
Returns the updated strategy state and the emitted signal, if any. -/
def generateSignal (s : StratState) (bar : SBar) : StratState × Option Sig :=
  match bar.time, bar.close, bar.sma with
  | some t, some c, some m =>
      if c > m then
        if s.current_position ≠ some .long then
          ({ s with current_position := some .long },
           some ⟨"buy", s.instrument, s.size, c, t⟩)
        else (s, none)
      else if c < m then
        if s.current_position ≠ some .short then
          ({ s with current_position := some .short },
           some ⟨"short", s.instrument, s.size, c, t⟩)
        else (s, none)
      else if c ≤ m ∧ s.current_position = some .long then
        ({ s with current_position := none },
         some ⟨"sell", s.instrument, s.size, c, t⟩)
      else if c ≥ m ∧ s.current_position = some .short then
        ({ s with current_position := none },
         some ⟨"cover", s.instrument, s.size, c, t⟩)
      else
        ({ s with no_trade_reasons :=
            bumpReason s.no_trade_reasons "No trade condition met" }, none)
  | _, _, _ =>
      ({ s with no_trade_reasons :=
          bumpReason s.no_trade_reasons "Incomplete data" }, none)

/-- Running the strategy over a bar sequence, collecting emitted signals in
order. -/
def runStrategy (s : StratState) : List SBar → StratState × List Sig
  | [] => (s, [])
  | b :: bs =>
      let step := generateSignal s b
      let rest := runStrategy step.1 bs
      (rest.1, step.2.toList ++ rest.2)

/-! ## Risk Validator (`risk_manager.py`, `RiskManager`) -/

/-- The distinct no-trade reason strings of `apply_risk_rules`, with their
formatted payloads. -/
inductive Reason where
  | drawdownExceeded
  | missingInstrument
  | invalidPrice (p : Option ℚ)
  | priceMismatch
  | sizeTooSmall (p : ℚ)
  | invalidAction (a : Option String)
  deriving DecidableEq, Repr

/-- The signal dict as `apply_risk_rules` reads it (`signal_info.get(...)`). -/
structure RMSignal where
  action : Option String
  instrument : Option String
  price : Option ℚ
  deriving DecidableEq, Repr

/-- A validated order dict returned by `apply_risk_rules`. -/
structure Order where
  action : String
  instrument : String
  size : Int
  entry_price : ℚ
  stop_loss : ℚ
  take_profit : ℚ
  deriving DecidableEq, Repr

/-- Models `RiskManager` state. -/
structure RMState where
  base_capital : ℚ
  max_drawdown : ℚ
  stop_loss_pct : ℚ
  take_profit_pct : ℚ
  max_position_fraction : ℚ
  current_drawdown : ℚ
  latest_price : List (String × ℚ)
  no_trade_reasons : List (String × Reason)
  deriving DecidableEq, Repr

/-- Python truthiness of an optional string (`not instrument`). -/
def strTruthy : Option String → Bool
  | none => false
  | some s => !s.isEmpty

/-- Python truthiness of an optional float (`if latest_price`). -/
def ratTruthy : Option ℚ → Bool
  | none => false
  | some q => q != 0

/-- Python `int(...)` on a float: truncation toward zero. -/
def pyInt (q : ℚ) : Int :=
  if 0 ≤ q then ⌊q⌋ else ⌈q⌉

/-- Models `self.get_current_price(instrument)` (a `None` instrument looks up
nothing). -/
def latestPriceOf (s : RMState) (sig : RMSignal) : Option ℚ :=
  match sig.instrument with
  | none => none
  | some i => lookupA s.latest_price i

/-- Models `price = latest_price if latest_price else signal_price`. -/
def resolvedPrice (s : RMState) (sig : RMSignal) : Option ℚ :=
  if ratTruthy (latestPriceOf s sig) then latestPriceOf s sig else sig.price

/-- The staleness guard:
`latest_price and signal_price and abs(latest_price - signal_price) > 0.01 * signal_price`. -/
def priceMismatch (s : RMState) (sig : RMSignal) : Bool :=
  match latestPriceOf s sig, sig.price with
  | some l, some p => l != 0 && p != 0 && decide (|l - p| > 1 / 100 * p)
  | _, _ => false

/-- Models `size = int(self.base_capital * self.max_position_fraction / price)`. -/
def riskSize (s : RMState) (price : ℚ) : Int :=
  pyInt (s.base_capital * s.max_position_fraction / price)

/-- Models `RiskManager.log_no_trade_reason` (last reason wins per instrument). -/
def logNoTrade (s : RMState) (sig : RMSignal) (r : Reason) : RMState :=
  { s with no_trade_reasons :=
      (setA s.no_trade_reasons (sig.instrument.getD "Unknown") r) }

/-- Models `RiskManager.apply_risk_rules`: the short-circuiting rule chain.  The
Python function returns the empty (falsy) dict `{}` on rejection, modelled as
`none`. -/
def applyRiskRules (s : RMState) (sig : RMSignal) : RMState × Option Order :=
  if s.current_drawdown > s.max_drawdown then
    (logNoTrade s sig .drawdownExceeded, none)
  else if strTruthy sig.instrument = false then
    (logNoTrade s sig .missingInstrument, none)
  else
    match resolvedPrice s sig with
    | none => (logNoTrade s sig (.invalidPrice none), none)
    | some price =>
        if price ≤ 0 then
          (logNoTrade s sig (.invalidPrice (some price)), none)
        else if priceMismatch s sig then
          (logNoTrade s sig .priceMismatch, none)
        else if riskSize s price ≤ 0 then
          (logNoTrade s sig (.sizeTooSmall price), none)
        else if sig.action ≠ some "buy" ∧ sig.action ≠ some "sell" then
          (logNoTrade s sig (.invalidAction sig.action), none)
        else
          let act := sig.action.getD ""
          (s, some
            { action := act
              instrument := sig.instrument.getD ""
              size := riskSize s price
              entry_price := price
              stop_loss := price *
                (if act = "buy" then 1 - s.stop_loss_pct else 1 + s.stop_loss_pct)
              take_profit := price *
                (if act = "buy" then 1 + s.take_profit_pct else 1 - s.take_profit_pct) })

/-! ## Execution book (`order_handler.py`, `OrderHandler`) -/

/-- An entry of `OrderHandler.open_positions`. -/
structure OHPos where
  entry_price : ℚ
  size : ℚ
  stop_loss : ℚ
  take_profit : ℚ
  deriving DecidableEq, Repr

/-- A filled order as produced by `OrderHandler.execute_order`. -/
structure FilledOrder where
  instrument : String
  filled_price : ℚ
  size : ℚ
  time : TimeStr
  action : String
  stop_loss : ℚ
  take_profit : ℚ
  deriving DecidableEq, Repr

/-- Models `OrderHandler`'s own position book and realized P&L. -/
structure OHState where
  open_positions : List (String × OHPos)
  realized_pnl : ℚ
  deriving DecidableEq, Repr

/-- Models `OrderHandler.update_positions`. -/
def ohUpdatePositions (s : OHState) (f : FilledOrder) : OHState :=
  if f.action = "buy" then
    match lookupA s.open_positions f.instrument with
    | none =>
        { s with open_positions :=
            (setA s.open_positions f.instrument
              ⟨f.filled_price, f.size, f.stop_loss, f.take_profit⟩) }
    | some p =>
        let total_cost := p.entry_price * p.size + f.filled_price * f.size
        let total_size := p.size + f.size
        { s with open_positions :=
            (setA s.open_positions f.instrument
              { p with entry_price := total_cost / total_size, size := total_size }) }
  else if f.action = "sell" then
    match lookupA s.open_positions f.instrument with
    | none => s
    | some p =>
        let pnl := (f.filled_price - p.entry_price) * f.size
        let newSize := p.size - f.size
        if newSize ≤ 0 then
          { open_positions := (eraseA s.open_positions f.instrument)
            realized_pnl := s.realized_pnl + pnl }
        else
          { open_positions :=
              (setA s.open_positions f.instrument { p with size := newSize })
            realized_pnl := s.realized_pnl + pnl }
  else s

/-- Processing a sequence of filled orders through `OrderHandler`'s book. -/
def runOH (s : OHState) : List FilledOrder → OHState
  | [] => s
  | f :: fs => runOH (ohUpdatePositions s f) fs

/-! ## Portfolio Accountant (`portfolio_manager.py`, `PortfolioManager`) -/

/-- One row of the trade ledger (`self.trades`). -/
structure PMTrade where
  instrument : String
  action : String
  size : ℚ
  filled_price : ℚ
  time : TimeStr
  reason : String
  net_profit : ℚ
  bars_held : Int
  deriving DecidableEq, Repr

/-- An entry of `self.positions`. -/
structure PMPos where
  size : ℚ
  entry_price : ℚ
  entry_time : TimeStr
  deriving DecidableEq, Repr

/-- Models `PortfolioManager` state. -/
structure PMState where
  trades : List PMTrade
  positions : List (String × PMPos)
  cash : ℚ
  starting_cash : ℚ
  realized_pnl : ℚ
  unrealized_pnl : ℚ
  market_data : List (String × ℚ)
  equity_curve : List ℚ
  deriving DecidableEq, Repr

/-- Models `PortfolioManager(starting_cash)`: the equity curve is seeded with the
starting cash. -/
def PMState.init (starting_cash : ℚ) : PMState :=
  ⟨[], [], starting_cash, starting_cash, 0, 0, [], [starting_cash]⟩

/-- Models `size_change = trade['size'] if trade['action'] == 'buy' else -trade['size']`. -/
def sizeChangeOf (t : PMTrade) : ℚ :=
  if t.action = "buy" then t.size else -t.size

/-- Models `PortfolioManager.update_positions`.  Returns the state and the trade dict
(which the Python code mutates in place when a position fully closes).  A
`pd.Timestamp` parse failure inside the closing branch raises; the method's own
`except` swallows it, leaving exactly the mutations made before the raise. -/
def updatePositions (s : PMState) (t : PMTrade) : PMState × PMTrade :=
  let instr := t.instrument
  let size_change := sizeChangeOf t
  let position := (lookupA s.positions instr).getD ⟨0, 0, t.time⟩
  let old_size := position.size
  let new_size := old_size + size_change
  if old_size = 0 ∧ new_size ≠ 0 then
    ({ s with positions :=
        (setA s.positions instr
          { position with entry_price := t.filled_price, entry_time := t.time,
                          size := new_size }) }, t)
  else if new_size = 0 then
    match position.entry_time, t.time with
    | some et, some xt =>
        let bars_held := max (daysBetween et xt) 1
        let net_profit :=
          if old_size > 0 then (t.filled_price - position.entry_price) * |size_change|
          else (position.entry_price - t.filled_price) * |size_change|
        let t' := { t with net_profit := net_profit, bars_held := bars_held }
        let s' := { s with realized_pnl := s.realized_pnl + net_profit }
        if (lookupA s.positions instr).isSome then
          ({ s' with positions := (eraseA s.positions instr) }, t')
        else
          (s', t')
    | _, _ => (s, t)
  else
    let total_cost_before := position.entry_price * position.size
    let trade_cost := t.filled_price * size_change
    let new_entry_price := (total_cost_before + trade_cost) / new_size
    ({ s with positions :=
        (setA s.positions instr
          { position with entry_price := new_entry_price, size := new_size }) }, t)

/-- Models `PortfolioManager.update_cash`. -/
def updateCash (s : PMState) (t : PMTrade) : PMState :=
  let cost := t.filled_price * t.size
  if t.action = "buy" then { s with cash := s.cash - cost }
  else { s with cash := s.cash + cost }

/-- Models `PortfolioManager.calculate_unrealized_pnl` (the returned value; the
method also stores it in `self.unrealized_pnl`). -/
def calcUnrealized (s : PMState) : ℚ :=
  s.positions.foldl
    (fun acc p =>
      let pos := p.2
      let cur := (lookupA s.market_data p.1).getD pos.entry_price
      if pos.size > 0 then acc + (cur - pos.entry_price) * pos.size
      else acc + (pos.entry_price - cur) * |pos.size|) 0

/-- Models `PortfolioManager.update_equity_curve`: appends
`cash + calculate_unrealized_pnl()` (which also refreshes
`self.unrealized_pnl`). -/
def updateEquityCurve (s : PMState) : PMState :=
  let u := calcUnrealized s
  { s with unrealized_pnl := u, equity_curve := s.equity_curve ++ [s.cash + u] }

/-- The fill-processing pipeline shared by `on_order_filled` and
`on_stop_triggered`: positions → cash → equity curve → ledger. -/
def fillPipeline (s : PMState) (t : PMTrade) : PMState :=
  let step := updatePositions s t
  let s2 := updateCash step.1 step.2
  let s3 := updateEquityCurve s2
  { s3 with trades := s3.trades ++ [step.2] }

/-- Models `PortfolioManager.on_order_filled`: zero-initialize `net_profit` and
`bars_held`, then run the fill pipeline. -/
def onOrderFilled (s : PMState) (t0 : PMTrade) : PMState :=
  fillPipeline s { t0 with net_profit := 0, bars_held := 0 }

/-- Models `PortfolioManager.on_stop_triggered`: force-close the current position at
the stop level, when one is open; `now` is the parse result of
`pd.Timestamp.now().isoformat()`. -/
def onStopTriggered (s : PMState) (instrument reason : String) (stop_level : ℚ)
    (now : Int) : PMState :=
  match lookupA s.positions instrument with
  | none => s
  | some pos =>
      if |pos.size| > 0 then
        let action := if pos.size > 0 then "sell" else "buy"
        let stop_trade : PMTrade :=
          ⟨instrument, action, |pos.size|, stop_level, some now, reason, 0, 0⟩
        fillPipeline s stop_trade
      else s

/-- A fill-producing event delivered to the Portfolio Accountant. -/
inductive FillEvent where
  | order (t : PMTrade)
  | stop (instrument reason : String) (stop_level : ℚ) (now : Int)
  deriving DecidableEq, Repr

/-- Dispatch one event. -/
def processEvent (s : PMState) : FillEvent → PMState
  | .order t => onOrderFilled s t
  | .stop i r lvl now => onStopTriggered s i r lvl now

/-- Whether an event results in a processed fill (an order fill always does; a
stop trigger only when a position with non-zero size is open). -/
def eventProcessed (s : PMState) : FillEvent → Bool
  | .order _ => true
  | .stop i _ _ _ =>
      match lookupA s.positions i with
      | none => false
      | some pos => decide (|pos.size| > 0)

/-- Processing a sequence of fill events. -/
def runEvents (s : PMState) : List FillEvent → PMState
  | [] => s
  | e :: es => runEvents (processEvent s e) es

/-- The number of events of the sequence that result in a processed fill. -/
def processedCount (s : PMState) : List FillEvent → Nat
  | [] => 0
  | e :: es =>
      (if eventProcessed s e then 1 else 0) + processedCount (processEvent s e) es

/-! ## Performance Analyzer (`PortfolioManager.calculate_performance_metrics`) -/

/-- Models `trades_df[trades_df["action"] == "buy"]`. -/
def longOf (ts : List PMTrade) : List PMTrade :=
  ts.filter (fun t => t.action == "buy")

/-- Models `trades_df[trades_df["action"] == "sell"]`. -/
def shortOf (ts : List PMTrade) : List PMTrade :=
  ts.filter (fun t => t.action == "sell")

/-- Gross profit: sum of the positive `net_profit` values. -/
def grossProfit (ts : List PMTrade) : ℚ :=
  ((ts.filter fun t => decide (t.net_profit > 0)).map PMTrade.net_profit).sum

/-- Gross loss: sum of the negative `net_profit` values (a non-positive
number). -/
def grossLoss (ts : List PMTrade) : ℚ :=
  ((ts.filter fun t => decide (t.net_profit < 0)).map PMTrade.net_profit).sum

/-- Models `pf(gp, gl) = gp / abs(gl) if gl != 0 else np.inf`; `none` models
`np.inf`. -/
def profitFactor (gp gl : ℚ) : Option ℚ :=
  if gl ≠ 0 then some (gp / |gl|) else none

/-- Number of winning trades of a partition. -/
def winCount (ts : List PMTrade) : Nat :=
  (ts.filter fun t => decide (t.net_profit > 0)).length

/-- Models `pct(part, whole) = (part / whole) * 100 if whole > 0 else 0`. -/
def pctOf (part whole : Nat) : ℚ :=
  if whole > 0 then ((part : ℚ) / (whole : ℚ)) * 100 else 0

/-- Winning percentage of a partition. -/
def winningPercentage (ts : List PMTrade) : ℚ :=
  pctOf (winCount ts) ts.length

/-- Losing percentage of a partition: literally `100 - winning_percentage`. -/
def losingPercentage (ts : List PMTrade) : ℚ :=
  100 - winningPercentage ts

/-- Models `np.maximum.accumulate`, running from the given current maximum. -/
def runningMaxFrom (cur : ℚ) : List ℚ → List ℚ
  | [] => []
  | x :: xs => max cur x :: runningMaxFrom (max cur x) xs

/-- Models `np.maximum.accumulate(equity_array)`. -/
def runningMax : List ℚ → List ℚ
  | [] => []
  | x :: xs => x :: runningMaxFrom x xs

/-- Models `drawdowns = equity_array - running_max` (elementwise). -/
def drawdowns (eq : List ℚ) : List ℚ :=
  List.zipWith (fun a b => a - b) eq (runningMax eq)

/-- Models `np.min` over a non-empty array (`0` is a junk value for the empty case,
which the code never reaches: the equity curve is seeded). -/
def listMin : List ℚ → ℚ
  | [] => 0
  | x :: xs => xs.foldl min x

/-- Models `max_drawdown = drawdowns.min()`. -/
def maxDrawdown (eq : List ℚ) : ℚ :=
  listMin (drawdowns eq)

/-- Models `return_retracement_ratio = all_net_profit / abs(max_drawdown) if
max_drawdown < 0 else np.inf`; `none` models `np.inf`. -/
def returnRetracement (net mdd : ℚ) : Option ℚ :=
  if mdd < 0 then some (net / |mdd|) else none

/-! ## Association-list (dict) lemmas -/

theorem lookupA_setA_self {α : Type} (m : List (String × α)) (k : String) (v : α) :
    lookupA (setA m k v) k = some v := by
  induction m with
  | nil => simp [setA, lookupA]
  | cons p rest ih =>
      obtain ⟨k', v'⟩ := p
      by_cases h : k' = k <;> simp [setA, lookupA, h, ih]

theorem lookupA_setA_ne {α : Type} (m : List (String × α)) (k k' : String) (v : α)
    (h : k' ≠ k) : lookupA (setA m k v) k' = lookupA m k' := by
  induction m with
  | nil => simp [setA, lookupA, Ne.symm h]
  | cons p rest ih =>
      obtain ⟨k'', v''⟩ := p
      by_cases hk : k'' = k
      · subst hk
        simp [setA, lookupA, Ne.symm h]
      · simp [setA, lookupA, hk, ih]

theorem lookupA_eq_none {α : Type} (m : List (String × α)) (k : String)
    (h : k ∉ m.map Prod.fst) : lookupA m k = none := by
  induction m with
  | nil => rfl
  | cons p rest ih =>
      obtain ⟨k', v'⟩ := p
      simp only [List.map_cons, List.mem_cons] at h
      push_neg at h
      simp [lookupA, Ne.symm h.1, ih h.2]

theorem lookupA_eraseA_self {α : Type} (m : List (String × α)) (k : String)
    (hnd : (m.map Prod.fst).Nodup) : lookupA (eraseA m k) k = none := by
  induction m with
  | nil => rfl
  | cons p rest ih =>
      obtain ⟨k', v'⟩ := p
      simp only [List.map_cons, List.nodup_cons] at hnd
      by_cases h : k' = k
      · subst h
        simpa [eraseA] using lookupA_eq_none rest k' hnd.1
      · simp [eraseA, lookupA, h, ih hnd.2]

theorem mem_setA {α : Type} {m : List (String × α)} {k : String} {v : α}
    {p : String × α} (hp : p ∈ setA m k v) : p ∈ m ∨ p.2 = v := by
  induction m with
  | nil =>
      simp only [setA, List.mem_singleton] at hp
      exact Or.inr (by simp [hp])
  | cons q rest ih =>
      obtain ⟨k', v'⟩ := q
      by_cases h : k' = k
      · subst h
        have hp' : p = (k', v) ∨ p ∈ rest := by simpa [setA] using hp
        rcases hp' with hp' | hp'
        · exact Or.inr (by simp [hp'])
        · exact Or.inl (List.mem_cons_of_mem _ hp')
      · have hp' : p = (k', v') ∨ p ∈ setA rest k v := by simpa [setA, h] using hp
        rcases hp' with hp' | hp'
        · exact Or.inl (by simp [hp'])
        · rcases ih hp' with h' | h'
          · exact Or.inl (List.mem_cons_of_mem _ h')
          · exact Or.inr h'

theorem mem_eraseA {α : Type} {m : List (String × α)} {k : String}
    {p : String × α} (hp : p ∈ eraseA m k) : p ∈ m := by
  induction m with
  | nil => simp [eraseA] at hp
  | cons q rest ih =>
      obtain ⟨k', v'⟩ := q
      by_cases h : k' = k
      · subst h
        have hp' : p ∈ rest := by simpa [eraseA] using hp
        exact List.mem_cons_of_mem _ hp'
      · have hp' : p = (k', v') ∨ p ∈ eraseA rest k := by simpa [eraseA, h] using hp
        rcases hp' with hp' | hp'
        · exact hp' ▸ List.mem_cons_self _ _
        · exact List.mem_cons_of_mem _ (ih hp')

theorem lookupA_mem {α : Type} {m : List (String × α)} {k : String} {v : α}
    (h : lookupA m k = some v) : (k, v) ∈ m := by
  induction m with
  | nil => simp [lookupA] at h
  | cons q rest ih =>
      obtain ⟨k', v'⟩ := q
      by_cases hk : k' = k
      · subst hk
        have h' : v' = v := by simpa [lookupA] using h
        subst h'
        exact List.mem_cons_self _ _
      · have h' : lookupA rest k = some v := by simpa [lookupA, hk] using h
        exact List.mem_cons_of_mem _ (ih h')

/-! ## Claim theorems -/

/-- C1: for every signal whose action is not `buy` and not `sell` (such as the
`short`/`cover` signals of the SMA crossover strategy), `apply_risk_rules`
returns no order; and when the signal passes the drawdown, instrument, price,
mismatch and size checks, the rejection reason recorded for the instrument is
the invalid-action reason. -/
theorem C1_invalid_action_rejected (s : RMState) (sig : RMSignal)
    (hb : sig.action ≠ some "buy") (hs : sig.action ≠ some "sell") :
    (applyRiskRules s sig).2 = none ∧
    (¬ s.current_drawdown > s.max_drawdown →
      strTruthy sig.instrument = true →
      ∀ q, resolvedPrice s sig = some q → ¬ q ≤ 0 →
      priceMismatch s sig = false → ¬ riskSize s q ≤ 0 →
      lookupA (applyRiskRules s sig).1.no_trade_reasons (sig.instrument.getD "Unknown")
        = some (Reason.invalidAction sig.action)) := by
  constructor
  · unfold applyRiskRules
    repeat' split
    all_goals first
      | rfl
      | (rename_i hcond; exact absurd ⟨hb, hs⟩ hcond)
  · intro hd hi q hq hq0 hm hsz
    unfold applyRiskRules
    rw [if_neg hd, if_neg (by simp [hi]), hq]
    dsimp only
    rw [if_neg hq0, if_neg (by simp [hm]), if_neg hsz, if_pos ⟨hb, hs⟩]
    exact lookupA_setA_self _ _ _

/-- Witness for C1: a concrete `short` signal against a fresh risk manager
passes every earlier check and is rejected with the invalid-action reason. -/
theorem C1_invalid_action_rejected_witness :
    (applyRiskRules ⟨100000, 1/5, 1/100, 1/20, 1/20, 0, [], []⟩
        ⟨some "short", some "AAPL", some 100⟩).2 = none ∧
    lookupA (applyRiskRules ⟨100000, 1/5, 1/100, 1/20, 1/20, 0, [], []⟩
        ⟨some "short", some "AAPL", some 100⟩).1.no_trade_reasons "AAPL"
      = some (Reason.invalidAction (some "short")) := by
  have h := C1_invalid_action_rejected
    ⟨100000, 1/5, 1/100, 1/20, 1/20, 0, [], []⟩
    ⟨some "short", some "AAPL", some 100⟩
    (by decide) (by decide)
  refine ⟨h.1, ?_⟩
  have h2 := h.2 (by norm_num) (by decide) 100 (by decide) (by norm_num)
    (by decide) (by norm_num [riskSize, pyInt])
  simpa using h2

/-- C2: a fill that brings a non-zero position to exactly zero size closes it:
net profit is (exit − entry) × |size closed| for a long, (entry − exit) ×
|size closed| for a short; bars held is max(1, whole-day difference of the
timestamps), hence always ≥ 1; the instrument is removed from the position
map; and the net profit is added to realized P&L. -/
theorem C2_full_close (s : PMState) (t : PMTrade) (pos : PMPos) (et xt : Int)
    (hnd : (s.positions.map Prod.fst).Nodup)
    (hpos : lookupA s.positions t.instrument = some pos)
    (hsz : pos.size ≠ 0)
    (hclose : pos.size + sizeChangeOf t = 0)
    (het : pos.entry_time = some et)
    (hxt : t.time = some xt) :
    ((updatePositions s t).2.net_profit =
        if 0 < pos.size then (t.filled_price - pos.entry_price) * |pos.size|
        else (pos.entry_price - t.filled_price) * |pos.size|) ∧
    (updatePositions s t).2.bars_held = max 1 (daysBetween et xt) ∧
    1 ≤ (updatePositions s t).2.bars_held ∧
    lookupA (updatePositions s t).1.positions t.instrument = none ∧
    (updatePositions s t).1.realized_pnl
      = s.realized_pnl + (updatePositions s t).2.net_profit := by
  have hchg : sizeChangeOf t = -pos.size := by linarith
  have key : updatePositions s t =
      ({ s with positions := eraseA s.positions t.instrument,
                realized_pnl := s.realized_pnl +
                  (if 0 < pos.size then (t.filled_price - pos.entry_price) * |pos.size|
                   else (pos.entry_price - t.filled_price) * |pos.size|) },
       { t with
          net_profit :=
            (if 0 < pos.size then (t.filled_price - pos.entry_price) * |pos.size|
             else (pos.entry_price - t.filled_price) * |pos.size|),
          bars_held := max (daysBetween et xt) 1 }) := by
    simp only [updatePositions, hpos, Option.getD_some]
    rw [if_neg (fun h => hsz h.1), if_pos hclose, het, hxt]
    simp [hpos, hchg, abs_neg, gt_iff_lt]
  rw [key]
  refine ⟨rfl, max_comm _ _, ?_, ?_, rfl⟩
  · exact le_max_right (daysBetween et xt) 1
  · exact lookupA_eraseA_self s.positions t.instrument hnd

/-- Witness for C2: closing a 100-share long entered at 10 by selling at 12
yields net profit 200, one bar held, removal of the position, and realized
P&L 200. -/
theorem C2_full_close_witness :
    ((updatePositions ⟨[], [("AAPL", ⟨100, 10, some 0⟩)], 1000, 1000, 0, 0, [], [1000]⟩
        ⟨"AAPL", "sell", 100, 12, some 90000, "r", 0, 0⟩).2.net_profit = 200) ∧
    ((updatePositions ⟨[], [("AAPL", ⟨100, 10, some 0⟩)], 1000, 1000, 0, 0, [], [1000]⟩
        ⟨"AAPL", "sell", 100, 12, some 90000, "r", 0, 0⟩).2.bars_held = 1) ∧
    (lookupA (updatePositions ⟨[], [("AAPL", ⟨100, 10, some 0⟩)], 1000, 1000, 0, 0, [], [1000]⟩
        ⟨"AAPL", "sell", 100, 12, some 90000, "r", 0, 0⟩).1.positions "AAPL" = none) ∧
    ((updatePositions ⟨[], [("AAPL", ⟨100, 10, some 0⟩)], 1000, 1000, 0, 0, [], [1000]⟩
        ⟨"AAPL", "sell", 100, 12, some 90000, "r", 0, 0⟩).1.realized_pnl = 200) := by
  have h := C2_full_close
    ⟨[], [("AAPL", ⟨100, 10, some 0⟩)], 1000, 1000, 0, 0, [], [1000]⟩
    ⟨"AAPL", "sell", 100, 12, some 90000, "r", 0, 0⟩
    ⟨100, 10, some 0⟩ 0 90000
    (by simp) (by simp [lookupA]) (by norm_num)
    (by simp only [sizeChangeOf]; rw [if_neg (by decide)]; norm_num) rfl rfl
  obtain ⟨h1, h2, _, h4, h5⟩ := h
  refine ⟨?_, ?_, h4, ?_⟩
  · rw [h1]; norm_num
  · rw [h2]; decide
  · rw [h5, h1]; norm_num

/-- C3: with fewer than W bars buffered (current bar included), the analyzer
returns the latest raw bar unchanged with no `sma`; with at least W bars
buffered it returns the bar enriched with `sma` equal to the arithmetic mean
of the `close` values of the last W bars, the current bar included. -/
theorem C3_sma_enrichment (s : MAState) (b : Bar)
    (hW : 0 < s.indicator_window) (hraw : b.sma = none) :
    (s.buffer.length + 1 < s.indicator_window →
        (onMarketData s b).2.1 = b ∧ (onMarketData s b).2.1.sma = none) ∧
    (s.indicator_window ≤ s.buffer.length + 1 →
        ((s.buffer ++ [b]).drop (s.buffer.length + 1 - s.indicator_window)).length
            = s.indicator_window ∧
        (onMarketData s b).2.1 =
          { b with sma := some (((((s.buffer ++ [b]).drop
              (s.buffer.length + 1 - s.indicator_window)).map Bar.close).sum)
              / (s.indicator_window : ℚ)) }) := by
  have hbuf : (s.buffer ++ [b]).length = s.buffer.length + 1 := by simp
  have hlast : (s.buffer ++ [b]).getLast? = some b := List.getLast?_concat _
  constructor
  · intro hlt
    have hout : (onMarketData s b).2.1 = b := by
      simp only [onMarketData, processData, hlast]
      rw [if_pos (by simpa [hbuf] using hlt)]
      rfl
    exact ⟨hout, by rw [hout]; exact hraw⟩
  · intro hge
    refine ⟨?_, ?_⟩
    · rw [List.length_drop, hbuf, Nat.sub_sub_self (by omega)]
    · simp only [onMarketData, processData, hlast]
      rw [if_neg (by simp only [hbuf]; omega)]
      simp [smaOfBuffer, pyTail, Nat.pos_iff_ne_zero.mp hW, hbuf]

/-- Witness for C3: with window 2, the first bar is passed through raw and the
second bar is enriched with the mean close (10 + 12)/2 = 11. -/
theorem C3_sma_enrichment_witness :
    ((onMarketData (MAState.init 2) ⟨1, 10, none⟩).2.1 = ⟨1, 10, none⟩) ∧
    ((onMarketData ⟨2, [⟨1, 10, none⟩]⟩ ⟨2, 12, none⟩).2.1.sma = some 11) := by
  constructor
  · exact ((C3_sma_enrichment (MAState.init 2) ⟨1, 10, none⟩ (by decide) rfl).1
      (by decide)).1
  · have h := ((C3_sma_enrichment ⟨2, [⟨1, 10, none⟩]⟩ ⟨2, 12, none⟩
      (by decide) rfl).2 (by decide)).2
    rw [h]
    norm_num

/-- C6 counterexample: with window W = 1, after two processed bars the
analyzer's maintained buffer holds 2 bars, exceeding W. -/
theorem C6_buffer_counterexample :
    (MAState.init 1).indicator_window = 1 ∧
    (runMA (MAState.init 1) [⟨1, 10, none⟩, ⟨2, 12, none⟩]).buffer.length = 2 := by
  refine ⟨rfl, ?_⟩
  simp [runMA, onMarketData, MAState.init]

/-- C6 amended: the internal buffer grows by one bar per processed bar without
bound (its length equals the number of bars processed so far), while the
history slice handed downstream never holds more than W bars. -/
theorem C6_buffer_amended :
    (∀ (s : MAState) (bs : List Bar),
        (runMA s bs).buffer.length = s.buffer.length + bs.length) ∧
    (∀ (s : MAState) (b : Bar), 0 < s.indicator_window →
        (onMarketData s b).2.2.length ≤ s.indicator_window) := by
  constructor
  · intro s bs
    induction bs generalizing s with
    | nil => simp [runMA]
    | cons b bs ih =>
        have hstep : (onMarketData s b).1 = { s with buffer := s.buffer ++ [b] } := rfl
        simp only [runMA, hstep, ih]
        simp
        omega
  · intro s b hW
    simp only [onMarketData]
    split
    · next h => simpa using Nat.le_of_lt (by simpa using h)
    · next h =>
        simp only [pyTail, if_neg (Nat.pos_iff_ne_zero.mp hW), List.length_drop]
        omega

/-- Witness for C6 amended: with window 2, one processed bar grows the buffer
to length 1 and the downstream history slice has length 1 ≤ 2. -/
theorem C6_buffer_amended_witness :
    (runMA (MAState.init 2) [⟨1, 10, none⟩]).buffer.length = 0 + 1 ∧
    (onMarketData (MAState.init 2) ⟨1, 10, none⟩).2.2.length ≤ 2 := by
  exact ⟨C6_buffer_amended.1 (MAState.init 2) [⟨1, 10, none⟩],
    C6_buffer_amended.2 (MAState.init 2) ⟨1, 10, none⟩ (by decide)⟩

/-- Models `update_positions` touches only the position map and realized P&L, and
mutates only the `net_profit`/`bars_held` fields of the trade dict. -/
theorem updatePositions_frame (s : PMState) (t : PMTrade) :
    (updatePositions s t).1.cash = s.cash ∧
    (updatePositions s t).1.equity_curve = s.equity_curve ∧
    (updatePositions s t).1.market_data = s.market_data ∧
    (updatePositions s t).1.trades = s.trades ∧
    (updatePositions s t).1.unrealized_pnl = s.unrealized_pnl ∧
    (updatePositions s t).2.action = t.action ∧
    (updatePositions s t).2.size = t.size ∧
    (updatePositions s t).2.filled_price = t.filled_price := by
  unfold updatePositions
  dsimp only
  repeat' split
  all_goals exact ⟨rfl, rfl, rfl, rfl, rfl, rfl, rfl, rfl⟩

/-- The fill pipeline appends exactly one equity entry, whose value is the
resulting cash plus the resulting unrealized P&L. -/
theorem fillPipeline_equity (s : PMState) (t : PMTrade) :
    (fillPipeline s t).equity_curve
      = s.equity_curve ++
          [(fillPipeline s t).cash + (fillPipeline s t).unrealized_pnl] := by
  have h := (updatePositions_frame s t).2.1
  unfold fillPipeline updateEquityCurve updateCash
  dsimp only
  split <;> simp [h]

/-- The fill pipeline adjusts cash by filled price × size, down for a buy and
up otherwise. -/
theorem fillPipeline_cash (s : PMState) (t : PMTrade) :
    (fillPipeline s t).cash
      = if t.action = "buy" then s.cash - t.filled_price * t.size
        else s.cash + t.filled_price * t.size := by
  obtain ⟨hc, -, -, -, -, ha, hsz, hfp⟩ := updatePositions_frame s t
  unfold fillPipeline updateEquityCurve updateCash
  dsimp only
  rw [ha, hsz, hfp]
  split <;> simp [hc]

/-- The fill pipeline appends the (possibly mutated) trade to the ledger and
carries the position map and realized P&L of the position-update step. -/
theorem fillPipeline_rest (s : PMState) (t : PMTrade) :
    (fillPipeline s t).trades = s.trades ++ [(updatePositions s t).2] ∧
    (fillPipeline s t).positions = (updatePositions s t).1.positions ∧
    (fillPipeline s t).realized_pnl = (updatePositions s t).1.realized_pnl := by
  have h := (updatePositions_frame s t).2.2.2.1
  unfold fillPipeline updateEquityCurve updateCash
  dsimp only
  split <;> simp [h]

/-- Every processed fill event runs the fill pipeline on some trade; an
unprocessed event leaves the state untouched. -/
theorem processEvent_fill (s : PMState) (e : FillEvent) :
    (eventProcessed s e = true → ∃ t, processEvent s e = fillPipeline s t) ∧
    (eventProcessed s e = false → processEvent s e = s) := by
  cases e with
  | order t =>
      refine ⟨fun _ => ⟨{ t with net_profit := 0, bars_held := 0 }, rfl⟩, fun h => ?_⟩
      simp [eventProcessed] at h
  | stop i r lvl now =>
      constructor
      · intro h
        simp only [eventProcessed] at h
        simp only [processEvent, onStopTriggered]
        cases hl : lookupA s.positions i with
        | none => rw [hl] at h; simp at h
        | some pos =>
            rw [hl] at h
            have hne : pos.size ≠ 0 := by simpa using h
            dsimp only
            rw [if_pos (abs_pos.mpr hne)]
            exact ⟨_, rfl⟩
      · intro h
        simp only [eventProcessed] at h
        simp only [processEvent, onStopTriggered]
        cases hl : lookupA s.positions i with
        | none => rfl
        | some pos =>
            rw [hl] at h
            have hz : pos.size = 0 := by simpa using h
            dsimp only
            rw [if_neg (by simp [hz])]

/-- One event step: a processed fill appends exactly the new cash + unrealized
P&L at the end of the equity curve; an unprocessed event changes nothing. -/
theorem processEvent_equity_step (s : PMState) (e : FillEvent) :
    (eventProcessed s e = true →
        (processEvent s e).equity_curve
          = s.equity_curve ++
              [(processEvent s e).cash + (processEvent s e).unrealized_pnl]) ∧
    (eventProcessed s e = false → processEvent s e = s) := by
  obtain ⟨h1, h2⟩ := processEvent_fill s e
  refine ⟨fun hp => ?_, h2⟩
  obtain ⟨t, ht⟩ := h1 hp
  rw [ht]
  exact fillPipeline_equity s t

/-- The equity curve grows by exactly the number of processed fills. -/
theorem runEvents_equity_length (s : PMState) (evs : List FillEvent) :
    (runEvents s evs).equity_curve.length
      = s.equity_curve.length + processedCount s evs := by
  induction evs generalizing s with
  | nil => simp [runEvents, processedCount]
  | cons e es ih =>
      simp only [runEvents, processedCount, ih]
      obtain ⟨h1, h2⟩ := processEvent_equity_step s e
      cases hp : eventProcessed s e with
      | true => rw [h1 hp]; simp; omega
      | false => rw [h2 hp]; simp

/-- The equity curve is append-only across any event sequence. -/
theorem runEvents_equity_append_only (s : PMState) (evs : List FillEvent) :
    s.equity_curve <+: (runEvents s evs).equity_curve := by
  induction evs generalizing s with
  | nil => exact ⟨[], by simp [runEvents]⟩
  | cons e es ih =>
      have h1 : s.equity_curve <+: (processEvent s e).equity_curve := by
        obtain ⟨hp1, hp2⟩ := processEvent_equity_step s e
        cases hp : eventProcessed s e with
        | true => exact ⟨_, (hp1 hp).symm⟩
        | false => rw [hp2 hp]
      obtain ⟨u, hu⟩ := h1
      obtain ⟨v, hv⟩ := ih (processEvent s e)
      exact ⟨u ++ v, by rw [← List.append_assoc, hu]; exact hv⟩

/-- C4: the equity curve is seeded with exactly the starting cash; after any
sequence of fill events its length is 1 plus the number of processed fills;
each processed fill appends cash + unrealized P&L at the end and an
unprocessed event changes nothing; earlier entries are never modified or
removed. -/
theorem C4_equity_curve (c : ℚ) :
    (PMState.init c).equity_curve = [c] ∧
    (∀ evs : List FillEvent,
        (runEvents (PMState.init c) evs).equity_curve.length
          = 1 + processedCount (PMState.init c) evs) ∧
    (∀ (s : PMState) (e : FillEvent),
        (eventProcessed s e = true →
          (processEvent s e).equity_curve
            = s.equity_curve ++
                [(processEvent s e).cash + (processEvent s e).unrealized_pnl]) ∧
        (eventProcessed s e = false → processEvent s e = s)) ∧
    (∀ (s : PMState) (evs : List FillEvent),
        s.equity_curve <+: (runEvents s evs).equity_curve) := by
  refine ⟨rfl, fun evs => ?_, processEvent_equity_step, runEvents_equity_append_only⟩
  rw [runEvents_equity_length]
  rfl

/-- Witness for C4: one concrete buy fill on a fresh portfolio appends exactly
one equity entry. -/
theorem C4_equity_curve_witness :
    (runEvents (PMState.init 1000)
        [FillEvent.order ⟨"A", "buy", 10, 5, some 0, "r", 0, 0⟩]).equity_curve.length
      = 1 + 1 ∧
    (processEvent (PMState.init 1000)
        (FillEvent.order ⟨"A", "buy", 10, 5, some 0, "r", 0, 0⟩)).equity_curve
      = [1000] ++
          [(processEvent (PMState.init 1000)
              (FillEvent.order ⟨"A", "buy", 10, 5, some 0, "r", 0, 0⟩)).cash
            + (processEvent (PMState.init 1000)
              (FillEvent.order ⟨"A", "buy", 10, 5, some 0, "r", 0, 0⟩)).unrealized_pnl] := by
  have h := C4_equity_curve 1000
  constructor
  · rw [h.2.1 [FillEvent.order ⟨"A", "buy", 10, 5, some 0, "r", 0, 0⟩]]
    rfl
  · have h3 := (h.2.2.1 (PMState.init 1000)
      (FillEvent.order ⟨"A", "buy", 10, 5, some 0, "r", 0, 0⟩)).1 rfl
    simpa using h3

/-- Folding `min` over a list never exceeds the initial accumulator. -/
theorem foldl_min_le (l : List ℚ) (a : ℚ) : l.foldl min a ≤ a := by
  induction l generalizing a with
  | nil => simp
  | cons y ys ih => exact le_trans (ih (min a y)) (min_le_left a y)

/-- The max drawdown of a non-empty equity curve is never positive: every
entry is at most its running maximum, and the first drawdown entry is 0. -/
theorem maxDrawdown_nonpos (eq : List ℚ) (hne : eq ≠ []) :
    maxDrawdown eq ≤ 0 := by
  obtain ⟨x, xs, rfl⟩ := List.exists_cons_of_ne_nil hne
  have hdd : maxDrawdown (x :: xs)
      = (List.zipWith (fun a b => a - b) xs (runningMaxFrom x xs)).foldl min (x - x) := by
    simp [maxDrawdown, drawdowns, runningMax, listMin]
  rw [hdd]
  have h1 := foldl_min_le (List.zipWith (fun a b => a - b) xs (runningMaxFrom x xs)) (x - x)
  have h2 : x - x = 0 := sub_self x
  linarith

/-- C5: the performance metrics guard every zero denominator: profit factor is
gross profit / |gross loss| and `+∞` (`none`) exactly when gross loss is 0;
winning and losing percentages of each partition (all/long/short) sum to
exactly 100, with winning percentage 0 on an empty partition; max drawdown is
never positive; and the return-retracement ratio is net profit /
|max drawdown| and `+∞` (`none`) exactly when max drawdown is 0. -/
theorem C5_metric_guards (ts : List PMTrade) (eq : List ℚ) (hne : eq ≠ []) :
    (∀ l ∈ [ts, longOf ts, shortOf ts],
        profitFactor (grossProfit l) (grossLoss l)
          = (if grossLoss l = 0 then none else some (grossProfit l / |grossLoss l|)) ∧
        winningPercentage l + losingPercentage l = 100 ∧
        (l = [] → winningPercentage l = 0)) ∧
    maxDrawdown eq ≤ 0 ∧
    returnRetracement (grossProfit ts + grossLoss ts) (maxDrawdown eq)
      = (if maxDrawdown eq = 0 then none
         else some ((grossProfit ts + grossLoss ts) / |maxDrawdown eq|)) := by
  have hle := maxDrawdown_nonpos eq hne
  refine ⟨?_, hle, ?_⟩
  · intro l _
    refine ⟨?_, ?_, ?_⟩
    · unfold profitFactor
      by_cases h : grossLoss l = 0 <;> simp [h]
    · unfold losingPercentage
      ring
    · intro h
      subst h
      simp [winningPercentage, winCount, pctOf]
  · unfold returnRetracement
    by_cases h : maxDrawdown eq = 0
    · simp [h]
    · have hlt : maxDrawdown eq < 0 := lt_of_le_of_ne hle h
      simp [h, hlt]

/-- Witness for C5: on an empty ledger and the seeded one-point equity curve,
the profit factor and return-retracement ratio are `+∞` (`none`) and the
percentages sum to 100. -/
theorem C5_metric_guards_witness :
    profitFactor (grossProfit ([] : List PMTrade)) (grossLoss []) = none ∧
    winningPercentage ([] : List PMTrade) + losingPercentage [] = 100 ∧
    winningPercentage ([] : List PMTrade) = 0 ∧
    returnRetracement (grossProfit ([] : List PMTrade) + grossLoss [])
      (maxDrawdown [100]) = none := by
  have h := C5_metric_guards [] [100] (by simp)
  obtain ⟨hp, -, hr⟩ := h
  have h1 := hp [] (List.mem_cons_self _ _)
  have hmd : maxDrawdown [100] = 0 := by
    simp [maxDrawdown, drawdowns, runningMax, runningMaxFrom, listMin]
  refine ⟨?_, h1.2.1, h1.2.2 rfl, ?_⟩
  · rw [h1.1]
    simp [grossLoss]
  · rw [hr, if_pos hmd]

/-- C7 counterexample: a fill with an unparsable exit timestamp that would
close an open long position leaves the position map untouched (the parse
failure is swallowed inside `update_positions`), while cash and the equity
curve are still updated — so the fill's processing is not atomic. -/
theorem C7_atomicity_counterexample :
    (onOrderFilled ⟨[], [("AAPL", ⟨100, 10, some 0⟩)], 1000, 1000, 0, 0, [], [1000]⟩
        ⟨"AAPL", "sell", 100, 12, none, "r", 0, 0⟩).positions
      = [("AAPL", ⟨100, 10, some 0⟩)] ∧
    (onOrderFilled ⟨[], [("AAPL", ⟨100, 10, some 0⟩)], 1000, 1000, 0, 0, [], [1000]⟩
        ⟨"AAPL", "sell", 100, 12, none, "r", 0, 0⟩).cash = 2200 ∧
    (onOrderFilled ⟨[], [("AAPL", ⟨100, 10, some 0⟩)], 1000, 1000, 0, 0, [], [1000]⟩
        ⟨"AAPL", "sell", 100, 12, none, "r", 0, 0⟩).equity_curve = [1000, 2200] := by
  refine ⟨?_, ?_, ?_⟩ <;>
    simp [onOrderFilled, fillPipeline, updatePositions, updateCash,
      updateEquityCurve, calcUnrealized, lookupA, setA, sizeChangeOf] <;>
    norm_num

/-- C7 amended: a fill whose position update fails on an unparsable entry or
exit timestamp leaves the position map and realized P&L unchanged, but still
adjusts cash, still appends one equity-curve entry, and still records the
trade — only the position-update step itself is skipped, not the whole fill. -/
theorem C7_atomicity_amended (s : PMState) (t0 : PMTrade) (pos : PMPos)
    (hpos : lookupA s.positions t0.instrument = some pos)
    (hsz : pos.size ≠ 0)
    (hclose : pos.size + sizeChangeOf t0 = 0)
    (hbad : pos.entry_time = none ∨ t0.time = none) :
    (onOrderFilled s t0).positions = s.positions ∧
    (onOrderFilled s t0).realized_pnl = s.realized_pnl ∧
    (onOrderFilled s t0).cash
      = (if t0.action = "buy" then s.cash - t0.filled_price * t0.size
         else s.cash + t0.filled_price * t0.size) ∧
    (onOrderFilled s t0).equity_curve
      = s.equity_curve
          ++ [(onOrderFilled s t0).cash + (onOrderFilled s t0).unrealized_pnl] ∧
    (onOrderFilled s t0).trades
      = s.trades ++ [{ t0 with net_profit := 0, bars_held := 0 }] := by
  have ht : updatePositions s { t0 with net_profit := 0, bars_held := 0 }
      = (s, { t0 with net_profit := 0, bars_held := 0 }) := by
    have hsc : sizeChangeOf { t0 with net_profit := 0, bars_held := 0 }
        = sizeChangeOf t0 := rfl
    simp only [updatePositions, hpos, Option.getD_some, hsc]
    rw [if_neg (fun h => hsz h.1), if_pos hclose]
    rcases hbad with hb | hb
    · rw [hb]
    · rw [hb]
      cases pos.entry_time <;> rfl
  obtain ⟨htr, hpo, hre⟩ :=
    fillPipeline_rest s { t0 with net_profit := 0, bars_held := 0 }
  have hca := fillPipeline_cash s { t0 with net_profit := 0, bars_held := 0 }
  have heq := fillPipeline_equity s { t0 with net_profit := 0, bars_held := 0 }
  simp only [onOrderFilled]
  refine ⟨?_, ?_, ?_, heq, ?_⟩
  · rw [hpo, ht]
  · rw [hre, ht]
  · exact hca
  · rw [htr, ht]

/-- Witness for C7 amended: the concrete non-atomic fill of the
counterexample satisfies the amended description. -/
theorem C7_atomicity_amended_witness :
    (onOrderFilled ⟨[], [("AAPL", ⟨100, 10, some 0⟩)], 1000, 1000, 0, 0, [], [1000]⟩
        ⟨"AAPL", "sell", 100, 12, none, "r", 0, 0⟩).positions
      = [("AAPL", ⟨100, 10, some 0⟩)] ∧
    (onOrderFilled ⟨[], [("AAPL", ⟨100, 10, some 0⟩)], 1000, 1000, 0, 0, [], [1000]⟩
        ⟨"AAPL", "sell", 100, 12, none, "r", 0, 0⟩).realized_pnl = 0 ∧
    (onOrderFilled ⟨[], [("AAPL", ⟨100, 10, some 0⟩)], 1000, 1000, 0, 0, [], [1000]⟩
        ⟨"AAPL", "sell", 100, 12, none, "r", 0, 0⟩).trades
      = [⟨"AAPL", "sell", 100, 12, none, "r", 0, 0⟩] := by
  have h := C7_atomicity_amended
    ⟨[], [("AAPL", ⟨100, 10, some 0⟩)], 1000, 1000, 0, 0, [], [1000]⟩
    ⟨"AAPL", "sell", 100, 12, none, "r", 0, 0⟩
    ⟨100, 10, some 0⟩
    (by simp [lookupA]) (by norm_num)
    (by simp only [sizeChangeOf]; rw [if_neg (by decide)]; norm_num)
    (Or.inr rfl)
  exact ⟨h.1, h.2.1, by rw [h.2.2.2.2]; rfl⟩

/-- C8: adding a same-direction fill of (signed) size s2 at price p2 to an
open position of signed size s1 at entry price p1 leaves a single position of
size s1+s2 with volume-weighted entry price (s1·p1 + s2·p2)/(s1+s2), the
original entry time kept, and every other instrument untouched. -/
theorem C8_same_direction_average (s : PMState) (t : PMTrade) (pos : PMPos)
    (hpos : lookupA s.positions t.instrument = some pos)
    (hdir : 0 < pos.size * sizeChangeOf t) :
    lookupA (updatePositions s t).1.positions t.instrument
      = some ⟨pos.size + sizeChangeOf t,
              (pos.size * pos.entry_price + sizeChangeOf t * t.filled_price)
                / (pos.size + sizeChangeOf t),
              pos.entry_time⟩ ∧
    (∀ k, k ≠ t.instrument →
        lookupA (updatePositions s t).1.positions k = lookupA s.positions k) := by
  have hold : pos.size ≠ 0 := by
    intro h
    rw [h] at hdir
    simp at hdir
  have hnew : pos.size + sizeChangeOf t ≠ 0 := by
    rcases mul_pos_iff.mp hdir with ⟨h1, h2⟩ | ⟨h1, h2⟩ <;> intro hz <;> linarith
  have key : updatePositions s t =
      ({ s with positions := (setA s.positions t.instrument
          ⟨pos.size + sizeChangeOf t,
           (pos.entry_price * pos.size + t.filled_price * sizeChangeOf t)
             / (pos.size + sizeChangeOf t),
           pos.entry_time⟩) }, t) := by
    simp only [updatePositions, hpos, Option.getD_some]
    rw [if_neg (fun h => hold h.1), if_neg hnew]
  rw [key]
  constructor
  · rw [lookupA_setA_self]
    have harith : pos.entry_price * pos.size + t.filled_price * sizeChangeOf t
        = pos.size * pos.entry_price + sizeChangeOf t * t.filled_price := by ring
    rw [harith]
  · intro k hk
    exact lookupA_setA_ne _ _ _ _ hk

/-- Witness for C8: 100 shares at 10 plus a same-direction buy of 50 at 13
leaves 150 shares at volume-weighted entry 11 with the original entry time. -/
theorem C8_same_direction_average_witness :
    lookupA (updatePositions
        ⟨[], [("AAPL", ⟨100, 10, some 0⟩)], 1000, 1000, 0, 0, [], [1000]⟩
        ⟨"AAPL", "buy", 50, 13, some 7, "r", 0, 0⟩).1.positions "AAPL"
      = some ⟨150, 11, some 0⟩ := by
  have h := (C8_same_direction_average
    ⟨[], [("AAPL", ⟨100, 10, some 0⟩)], 1000, 1000, 0, 0, [], [1000]⟩
    ⟨"AAPL", "buy", 50, 13, some 7, "r", 0, 0⟩
    ⟨100, 10, some 0⟩
    (by simp [lookupA])
    (by simp only [sizeChangeOf]; norm_num)).1
  rw [h]
  have h1 : (100 : ℚ) + sizeChangeOf ⟨"AAPL", "buy", 50, 13, some 7, "r", 0, 0⟩ = 150 := by
    simp only [sizeChangeOf]
    norm_num
  have h2 : ((100 : ℚ) * 10 + sizeChangeOf ⟨"AAPL", "buy", 50, 13, some 7, "r", 0, 0⟩ * 13)
      = 1650 := by
    simp only [sizeChangeOf]
    norm_num
  rw [h1, h2]
  norm_num

/-- A strategy already long emits nothing and stays long while every bar's
close stays above its sma. -/
theorem runStrategy_stays_long (bs : List SBar) (s : StratState)
    (hpos : s.current_position = some PosSide.long)
    (hall : ∀ x ∈ bs, ∃ t c m,
        x.time = some t ∧ x.close = some c ∧ x.sma = some m ∧ m < c) :
    (runStrategy s bs).1.current_position = some PosSide.long ∧
    (runStrategy s bs).2 = [] := by
  induction bs generalizing s with
  | nil => exact ⟨hpos, rfl⟩
  | cons b bs ih =>
      obtain ⟨t, c, m, hbt, hbc, hbm, hlt⟩ := hall b (List.mem_cons_self _ _)
      have hstep : generateSignal s b = (s, none) := by
        simp only [generateSignal, hbt, hbc, hbm]
        rw [if_pos hlt, if_neg (by simp [hpos])]
      have hrec := ih s hpos (fun x hx => hall x (List.mem_cons_of_mem _ hx))
      constructor
      · simpa [runStrategy, hstep] using hrec.1
      · simpa [runStrategy, hstep] using hrec.2

/-- C9: on a bar sequence whose every close is strictly above its sma, the
strategy starting FLAT emits exactly one `buy` signal — on the first bar,
moving to the LONG state — and nothing afterwards. -/
theorem C9_single_buy (instr : String) (sz : ℚ) (b : SBar) (bs : List SBar)
    (hall : ∀ x ∈ b :: bs, ∃ t c m,
        x.time = some t ∧ x.close = some c ∧ x.sma = some m ∧ m < c) :
    (∀ t c, b.time = some t → b.close = some c →
        (runStrategy (StratState.init instr sz) (b :: bs)).2
          = [⟨"buy", instr, sz, c, t⟩]) ∧
    (generateSignal (StratState.init instr sz) b).1.current_position
      = some PosSide.long := by
  obtain ⟨t0, c0, m0, hbt, hbc, hbm, hlt⟩ := hall b (List.mem_cons_self _ _)
  have hstep : generateSignal (StratState.init instr sz) b
      = ({ StratState.init instr sz with current_position := some PosSide.long },
         some ⟨"buy", instr, sz, c0, t0⟩) := by
    simp only [generateSignal, hbt, hbc, hbm, StratState.init]
    rw [if_pos hlt, if_pos (by simp)]
  have hrest := runStrategy_stays_long bs
    { StratState.init instr sz with current_position := some PosSide.long }
    rfl (fun x hx => hall x (List.mem_cons_of_mem _ hx))
  constructor
  · intro t c ht hc
    obtain rfl : t0 = t := Option.some.inj (hbt.symm.trans ht)
    obtain rfl : c0 = c := Option.some.inj (hbc.symm.trans hc)
    simp [runStrategy, hstep, hrest.2]
  · rw [hstep]

/-- Witness for C9: two bars with close 10 above sma 5 and close 11 above sma
6 produce exactly one buy signal, and the first bar moves the state to LONG. -/
theorem C9_single_buy_witness :
    (runStrategy (StratState.init "A" 1000)
        [⟨some 1, some 10, some 5⟩, ⟨some 2, some 11, some 6⟩]).2
      = [⟨"buy", "A", 1000, 10, 1⟩] ∧
    (generateSignal (StratState.init "A" 1000)
        ⟨some 1, some 10, some 5⟩).1.current_position = some PosSide.long := by
  have h := C9_single_buy "A" 1000 ⟨some 1, some 10, some 5⟩ [⟨some 2, some 11, some 6⟩]
    (by
      intro x hx
      simp only [List.mem_cons, List.not_mem_nil, or_false] at hx
      rcases hx with rfl | rfl
      · exact ⟨1, 10, 5, rfl, rfl, rfl, by norm_num⟩
      · exact ⟨2, 11, 6, rfl, rfl, rfl, by norm_num⟩)
  exact ⟨h.1 1 10 rfl rfl, h.2⟩

/-- A positive-size fill keeps every entry of `OrderHandler.open_positions`
strictly positive. -/
theorem ohUpdatePositions_pos_inv (s : OHState) (f : FilledOrder)
    (hf : 0 < f.size)
    (hs : ∀ p ∈ s.open_positions, 0 < p.2.size) :
    ∀ p ∈ (ohUpdatePositions s f).open_positions, 0 < p.2.size := by
  intro p hp
  unfold ohUpdatePositions at hp
  by_cases hb : f.action = "buy"
  · rw [if_pos hb] at hp
    cases hl : lookupA s.open_positions f.instrument with
    | none =>
        rw [hl] at hp
        dsimp only at hp
        rcases mem_setA hp with h | h
        · exact hs p h
        · rw [h]
          exact hf
    | some q =>
        rw [hl] at hp
        dsimp only at hp
        rcases mem_setA hp with h | h
        · exact hs p h
        · have hq : 0 < q.size := hs (f.instrument, q) (lookupA_mem hl)
          rw [h]
          dsimp only
          linarith
  · rw [if_neg hb] at hp
    by_cases hsell : f.action = "sell"
    · rw [if_pos hsell] at hp
      cases hl : lookupA s.open_positions f.instrument with
      | none =>
          rw [hl] at hp
          exact hs p hp
      | some q =>
          rw [hl] at hp
          dsimp only at hp
          by_cases hz : q.size - f.size ≤ 0
          · rw [if_pos hz] at hp
            exact hs p (mem_eraseA hp)
          · rw [if_neg hz] at hp
            rcases mem_setA hp with h | h
            · exact hs p h
            · rw [h]
              dsimp only
              linarith
    · rw [if_neg hsell] at hp
      exact hs p hp

/-- C10: after any sequence of positive-size filled orders the OrderHandler
book never records a short or zero-sized position, and a `sell` fill with no
open position leaves the book and OrderHandler's realized P&L unchanged. -/
theorem C10_orderhandler_book :
    (∀ fills : List FilledOrder, (∀ f ∈ fills, 0 < f.size) →
        ∀ p ∈ (runOH ⟨[], 0⟩ fills).open_positions, 0 < p.2.size) ∧
    (∀ (s : OHState) (f : FilledOrder), f.action = "sell" →
        lookupA s.open_positions f.instrument = none →
        ohUpdatePositions s f = s) := by
  constructor
  · have general : ∀ (fills : List FilledOrder) (s : OHState),
        (∀ f ∈ fills, 0 < f.size) → (∀ p ∈ s.open_positions, 0 < p.2.size) →
        ∀ p ∈ (runOH s fills).open_positions, 0 < p.2.size := by
      intro fills
      induction fills with
      | nil =>
          intro s _ hs
          simpa [runOH] using hs
      | cons f fs ih =>
          intro s hf hs
          simp only [runOH]
          exact ih _ (fun g hg => hf g (List.mem_cons_of_mem _ hg))
            (ohUpdatePositions_pos_inv s f (hf f (List.mem_cons_self _ _)) hs)
    exact fun fills hf => general fills ⟨[], 0⟩ hf (by simp)
  · intro s f hsell hnone
    unfold ohUpdatePositions
    rw [if_neg (by simp [hsell]), if_pos hsell, hnone]

/-- Witness for C10: a buy of 5 then an oversized-free book — every remaining
entry is positive — and a sell with no open position is a no-op. -/
theorem C10_orderhandler_book_witness :
    (∀ p ∈ (runOH ⟨[], 0⟩
        [⟨"A", 10, 5, some 0, "buy", 9, 11⟩]).open_positions, 0 < p.2.size) ∧
    ohUpdatePositions ⟨[], 0⟩ ⟨"A", 11, 3, some 1, "sell", 9, 11⟩ = ⟨[], 0⟩ := by
  constructor
  · exact C10_orderhandler_book.1 [⟨"A", 10, 5, some 0, "buy", 9, 11⟩]
      (by
        intro f hf
        simp only [List.mem_cons, List.not_mem_nil, or_false] at hf
        subst hf
        norm_num)
  · exact C10_orderhandler_book.2 ⟨[], 0⟩ ⟨"A", 11, 3, some 1, "sell", 9, 11⟩ rfl rfl

end Backtest
